import Mathlib

/-!
Verification of the ckb chain-state core against its sources.

The definitions below are a shallow embedding of the Rust sources:
hashes are modelled as natural numbers, hash maps as association lists or
functions, fallible code (including indexing that can panic) as
Option-valued functions.  Types whose defining file is not part of the
sources (they are only used by it) are modelled from the specification and
carry a doc comment saying so.
-/

namespace Ckb

/-- An out point `(tx_hash, index)`; hashes are modelled as naturals. -/
structure OutPoint where
  tx_hash : Nat
  index : Nat
deriving DecidableEq, Repr

/-- Modelled from the spec: a distinguished null out point exists, used by
cellbase inputs; in the sources it is the zero hash with the maximal u32
index. -/
def OutPoint.is_null (o : OutPoint) : Bool :=
  o.tx_hash == 0 && o.index == 4294967295

/-- Modelled from the spec: the cell output is an opaque payload (capacity,
data, scripts); none of the verified claims inspects it. -/
structure CellOutput where
  capacity : Nat
  data : Nat
deriving DecidableEq, Repr

/-- CellMeta from core/src/cell.rs. -/
structure CellMeta where
  cell_output : CellOutput
  block_number : Option Nat
  cellbase : Bool
deriving DecidableEq, Repr

/-- LiveCell from core/src/cell.rs. -/
inductive LiveCell where
  | Null : LiveCell
  | Output : CellMeta → LiveCell
deriving DecidableEq, Repr

/-- CellStatus from core/src/cell.rs. -/
inductive CellStatus where
  | Live : LiveCell → CellStatus
  | Dead : CellStatus
  | Unknown : CellStatus
deriving DecidableEq, Repr

/-- CellStatus::live_output. -/
def CellStatus.live_output (cell_output : CellOutput) (block_number : Option Nat)
    (cellbase : Bool) : CellStatus :=
  CellStatus.Live (LiveCell.Output ⟨cell_output, block_number, cellbase⟩)

/-- Modelled from the spec: transactions (core transaction.rs is not among
the sources).  `inputs` is the list of previous outputs (`input_pts`),
`deps` the dep out points (`dep_pts`), `short_id` the proposal short id. -/
structure Transaction where
  hash : Nat
  inputs : List OutPoint
  deps : List OutPoint
  outputs : List CellOutput
  short_id : Nat
deriving DecidableEq, Repr

/-- ResolvedTransaction from core/src/cell.rs. -/
structure ResolvedTransaction where
  transaction : Transaction
  dep_cells : List CellStatus
  input_cells : List CellStatus
deriving DecidableEq, Repr

/-- UnresolvableError from core/src/cell.rs. -/
inductive UnresolvableError where
  | Dead : UnresolvableError
  | Unknown : UnresolvableError
deriving DecidableEq, Repr

/-- A cell provider is its `cell` capability (the CellProvider trait). -/
structure CellProvider where
  cell : OutPoint → CellStatus

/-- CellProvider::get_cell_status: short-circuit the null out point. -/
def CellProvider.get_cell_status (p : CellProvider) (o : OutPoint) : CellStatus :=
  if o.is_null then CellStatus.Live LiveCell.Null else p.cell o

/-- The per-point step of resolve_transaction, collected with the
short-circuit semantics of `collect::<Result<Vec<_>, _>>()`. -/
def resolveStatusList (p : CellProvider) : List OutPoint →
    Except UnresolvableError (List CellStatus)
  | [] => Except.ok []
  | pt :: rest =>
    match p.get_cell_status pt with
    | CellStatus.Live lc =>
      match resolveStatusList p rest with
      | Except.ok l => Except.ok (CellStatus.Live lc :: l)
      | Except.error e => Except.error e
    | CellStatus.Dead => Except.error UnresolvableError.Dead
    | CellStatus.Unknown => Except.error UnresolvableError.Unknown

/-- CellProvider::resolve_transaction from core/src/cell.rs: inputs are
resolved first, then deps; the first failure wins. -/
def CellProvider.resolve_transaction (p : CellProvider) (tx : Transaction) :
    Except UnresolvableError ResolvedTransaction :=
  match resolveStatusList p tx.inputs with
  | Except.error e => Except.error e
  | Except.ok input_cells =>
    match resolveStatusList p tx.deps with
    | Except.error e => Except.error e
    | Except.ok dep_cells => Except.ok ⟨tx, dep_cells, input_cells⟩

/-- OverlayCellProvider from core/src/cell.rs. -/
def overlayCellProvider (overlay cell_provider : CellProvider) : CellProvider :=
  ⟨fun o =>
    match overlay.get_cell_status o with
    | CellStatus.Live co => CellStatus.Live co
    | CellStatus.Dead => CellStatus.Dead
    | CellStatus.Unknown => cell_provider.get_cell_status o⟩

/-- One `entry(..).and_modify(|c| c += 1).or_default()` step of the
duplicate-inputs counter: an absent key is inserted at 0, a present one is
incremented. -/
def dupStep (m : OutPoint → Option Nat) (o : OutPoint) : OutPoint → Option Nat :=
  fun x =>
    if x = o then
      match m o with
      | some c => some (c + 1)
      | none => some 0
    else m x

/-- The duplicate-inputs counter built over a list of out points. -/
def buildDupCounter (pts : List OutPoint) : OutPoint → Option Nat :=
  pts.foldl dupStep (fun _ => none)

/-- TransactionCellProvider from core/src/cell.rs. -/
def transactionCellProvider (tx : Transaction) : CellProvider :=
  ⟨fun o =>
    match buildDupCounter tx.inputs o with
    | some c => if 0 < c then CellStatus.Dead else CellStatus.Unknown
    | none => CellStatus.Unknown⟩

/-- Modelled from the spec: a block header; only the number and the nonce
are consulted by the verified claims. -/
structure Header where
  number : Nat
  nonce : Nat
deriving DecidableEq, Repr

/-- Modelled from the spec: a block is its header, its transactions (the
first one being the cellbase), its proposal short ids and its uncles. -/
structure Block where
  header : Header
  transactions : List Transaction
  proposal_transactions : List Nat
  uncles : List Nat
deriving DecidableEq, Repr

/-- The duplicate-inputs counter of BlockCellProvider::new, built with the
same nested iteration as the source. -/
def blockDupCounter (txs : List Transaction) : OutPoint → Option Nat :=
  txs.foldl (fun m tx => tx.inputs.foldl dupStep m) (fun _ => none)

/-- The `output_indices` hash map of BlockCellProvider::new: transaction
hash to position; a later duplicate hash overwrites an earlier one, as
with HashMap insertion. -/
def buildOutputIndices (txs : List Transaction) (base : Nat) (h : Nat) : Option Nat :=
  match txs with
  | [] => none
  | tx :: rest =>
    match buildOutputIndices rest (base + 1) h with
    | some i => some i
    | none => if tx.hash = h then some base else none

/-- All inputs of all transactions of a block, in source order. -/
def blockInputs (b : Block) : List OutPoint :=
  b.transactions.flatMap (fun tx => tx.inputs)

/-- The output lookup of BlockCellProvider::cell (the branch taken when
the duplicate test fails).  `transactions[i]` cannot be out of range by
construction of the indices, so a plain optional lookup is used. -/
def blockOutputLookup (b : Block) (o : OutPoint) : CellStatus :=
  match buildOutputIndices b.transactions 0 o.tx_hash with
  | some i =>
    match (b.transactions[i]?).bind (fun tx => tx.outputs[o.index]?) with
    | some x => CellStatus.live_output x (some b.header.number) (i == 0)
    | none => CellStatus.Unknown
  | none => CellStatus.Unknown

/-- BlockCellProvider from core/src/cell.rs. -/
def blockCellProvider (b : Block) : CellProvider :=
  ⟨fun o =>
    match blockDupCounter b.transactions o with
    | some c => if 0 < c then CellStatus.Dead else blockOutputLookup b o
    | none => blockOutputLookup b o⟩

/-- Occurrence count of an out point in a list. -/
def countPt (x : OutPoint) : List OutPoint → Nat
  | [] => 0
  | p :: r => (if p = x then 1 else 0) + countPt x r

/-- The error a cell status induces during resolution, if any. -/
def statusErr : CellStatus → Option UnresolvableError
  | CellStatus.Live _ => none
  | CellStatus.Dead => some UnresolvableError.Dead
  | CellStatus.Unknown => some UnresolvableError.Unknown

/-- The first resolution failure over a list of points, in order. -/
def firstUnresolvable (p : CellProvider) (pts : List OutPoint) : Option UnresolvableError :=
  pts.findSome? (fun pt => statusErr (p.get_cell_status pt))

lemma firstUnresolvable_cons (p : CellProvider) (pt : OutPoint) (rest : List OutPoint) :
    firstUnresolvable p (pt :: rest) =
      (match statusErr (p.get_cell_status pt) with
       | some e => some e
       | none => firstUnresolvable p rest) := by
  simp only [firstUnresolvable, List.findSome?_cons]
  cases statusErr (p.get_cell_status pt) <;> rfl

lemma resolveStatusList_error_iff (p : CellProvider) (pts : List OutPoint)
    (e : UnresolvableError) :
    resolveStatusList p pts = Except.error e ↔ firstUnresolvable p pts = some e := by
  induction pts with
  | nil => simp [resolveStatusList, firstUnresolvable]
  | cons pt rest ih =>
    rw [firstUnresolvable_cons]
    simp only [resolveStatusList]
    cases hst : p.get_cell_status pt with
    | Live lc =>
      simp only [statusErr]
      cases hrest : resolveStatusList p rest with
      | ok l =>
        simp only [hrest] at ih ⊢
        constructor
        · intro h
          exact absurd h (by simp)
        · intro h
          exact absurd ((ih.2 h)) (by simp)
      | error e2 =>
        simp only [hrest] at ih ⊢
        simpa using ih
    | Dead => simp [statusErr]
    | Unknown => simp [statusErr]

lemma resolveStatusList_ok_iff_none (p : CellProvider) (pts : List OutPoint) :
    (∃ l, resolveStatusList p pts = Except.ok l) ↔ firstUnresolvable p pts = none := by
  cases hres : resolveStatusList p pts with
  | ok l =>
    constructor
    · intro _
      cases hfr : firstUnresolvable p pts with
      | none => rfl
      | some e =>
        have := (resolveStatusList_error_iff p pts e).2 hfr
        rw [hres] at this
        exact absurd this (by simp)
    · intro _
      exact ⟨l, rfl⟩
  | error e =>
    have hfr := (resolveStatusList_error_iff p pts e).1 hres
    simp [hfr]

lemma firstUnresolvable_append (p : CellProvider) (l1 l2 : List OutPoint) :
    firstUnresolvable p (l1 ++ l2) =
      (match firstUnresolvable p l1 with
       | some e => some e
       | none => firstUnresolvable p l2) := by
  induction l1 with
  | nil => simp [firstUnresolvable]
  | cons pt rest ih =>
    rw [List.cons_append, firstUnresolvable_cons, firstUnresolvable_cons, ih]
    cases statusErr (p.get_cell_status pt) with
    | some e => rfl
    | none => rfl

/-- Claim C1 (amended): `resolve_transaction` fails with the status of the
first non-live point, scanning the inputs in order and then the deps in
order; it returns `Unresolvable(Dead)` only when the first failing point is
dead, not whenever some point is dead. -/
theorem resolve_transaction_first_failure (p : CellProvider) (tx : Transaction)
    (e : UnresolvableError) :
    p.resolve_transaction tx = Except.error e ↔
      firstUnresolvable p (tx.inputs ++ tx.deps) = some e := by
  rw [firstUnresolvable_append]
  unfold CellProvider.resolve_transaction
  cases hin : resolveStatusList p tx.inputs with
  | error e1 =>
    have h1 := (resolveStatusList_error_iff p tx.inputs e1).1 hin
    simp [h1]
  | ok l =>
    have h1 : firstUnresolvable p tx.inputs = none :=
      (resolveStatusList_ok_iff_none p tx.inputs).1 ⟨l, hin⟩
    simp only [h1]
    cases hdep : resolveStatusList p tx.deps with
    | error e2 =>
      have h2 := (resolveStatusList_error_iff p tx.deps e2).1 hdep
      simp [h2]
    | ok l2 =>
      have h2 : firstUnresolvable p tx.deps = none :=
        (resolveStatusList_ok_iff_none p tx.deps).1 ⟨l2, hdep⟩
      simp [h2]

/-- A provider for the C1 counterexample: index 0 is unknown, every other
index is dead. -/
def ceProviderC1 : CellProvider :=
  ⟨fun o => if o.index == 0 then CellStatus.Unknown else CellStatus.Dead⟩

/-- The C1 counterexample transaction: one unknown input before one dead
input. -/
def ceTxC1 : Transaction :=
  ⟨9, [⟨5, 0⟩, ⟨5, 1⟩], [], [], 9⟩

/-- Claim C1 (counterexample): a transaction with one dead input and one
unknown input resolves to `Unresolvable(Unknown)`, not
`Unresolvable(Dead)`, when the unknown input comes first. -/
theorem resolve_transaction_dead_not_first :
    ceProviderC1.get_cell_status ⟨5, 1⟩ = CellStatus.Dead ∧
    ceProviderC1.get_cell_status ⟨5, 0⟩ = CellStatus.Unknown ∧
    ceProviderC1.resolve_transaction ceTxC1 = Except.error UnresolvableError.Unknown ∧
    ceProviderC1.resolve_transaction ceTxC1 ≠ Except.error UnresolvableError.Dead := by
  refine ⟨rfl, rfl, rfl, ?_⟩
  rw [show ceProviderC1.resolve_transaction ceTxC1 =
        Except.error UnresolvableError.Unknown from rfl]
  simp

/-- Claim C8: the overlay provider returns the primary status when it is
live or dead and delegates to the fallback exactly on unknown. -/
theorem overlay_cell_provider_law (p f : CellProvider) (o : OutPoint) :
    (overlayCellProvider p f).get_cell_status o =
      (match p.get_cell_status o with
       | CellStatus.Live lc => CellStatus.Live lc
       | CellStatus.Dead => CellStatus.Dead
       | CellStatus.Unknown => f.get_cell_status o) := by
  by_cases hn : o.is_null = true
  · have hp : p.get_cell_status o = CellStatus.Live LiveCell.Null := by
      simp [CellProvider.get_cell_status, hn]
    have hc : (overlayCellProvider p f).get_cell_status o = CellStatus.Live LiveCell.Null := by
      simp [CellProvider.get_cell_status, hn]
    rw [hc, hp]
  · have hc : (overlayCellProvider p f).get_cell_status o = (overlayCellProvider p f).cell o := by
      simp [CellProvider.get_cell_status, hn]
    rw [hc]
    cases hpo : p.get_cell_status o with
    | Live lc => simp [overlayCellProvider, hpo]
    | Dead => simp [overlayCellProvider, hpo]
    | Unknown => simp [overlayCellProvider, hpo]

lemma dupStep_foldl_char (pts : List OutPoint) (m : OutPoint → Option Nat) (x : OutPoint) :
    (pts.foldl dupStep m) x =
      (match m x with
       | none => if countPt x pts = 0 then none else some (countPt x pts - 1)
       | some c => some (c + countPt x pts)) := by
  induction pts generalizing m with
  | nil => cases hmx : m x <;> simp [countPt, hmx]
  | cons p rest ih =>
    rw [List.foldl_cons, ih]
    by_cases hxp : x = p
    · subst hxp
      simp only [dupStep, if_pos rfl, countPt, if_pos rfl]
      cases m x with
      | none => simp [Nat.succ_sub_one]
      | some c => simp [countPt]; omega
    · have hpx : ¬(p = x) := fun h => hxp h.symm
      simp only [dupStep, if_neg hxp, countPt, if_neg hpx]
      cases m x <;> simp

lemma buildDupCounter_char (pts : List OutPoint) (x : OutPoint) :
    buildDupCounter pts x =
      (if countPt x pts = 0 then none else some (countPt x pts - 1)) := by
  rw [buildDupCounter, dupStep_foldl_char]

lemma blockDupCounter_eq_flat (txs : List Transaction) :
    ∀ m, txs.foldl (fun m tx => tx.inputs.foldl dupStep m) m =
      (txs.flatMap (fun tx => tx.inputs)).foldl dupStep m := by
  induction txs with
  | nil => intro m; simp
  | cons t rest ih =>
    intro m
    rw [List.foldl_cons, ih, List.flatMap_cons, List.foldl_append]

lemma blockDupCounter_char (b : Block) (x : OutPoint) :
    blockDupCounter b.transactions x =
      (if countPt x (blockInputs b) = 0 then none
       else some (countPt x (blockInputs b) - 1)) := by
  rw [blockDupCounter, blockDupCounter_eq_flat, blockInputs.eq_def, ← buildDupCounter]
  exact buildDupCounter_char _ x

lemma buildOutputIndices_none (txs : List Transaction) (h : Nat)
    (hno : ∀ tx ∈ txs, tx.hash ≠ h) : ∀ base, buildOutputIndices txs base h = none := by
  induction txs with
  | nil => intro base; rfl
  | cons t rest ih =>
    intro base
    have hrest := ih (fun tx htx => hno tx (List.mem_cons_of_mem t htx)) (base + 1)
    have ht : ¬(t.hash = h) := hno t (List.mem_cons_self t rest)
    simp [buildOutputIndices, hrest, ht]

lemma buildOutputIndices_of_getElem (txs : List Transaction) (p : Nat) (tx : Transaction)
    (hnodup : (txs.map Transaction.hash).Nodup)
    (hp : txs[p]? = some tx) :
    ∀ base, buildOutputIndices txs base tx.hash = some (base + p) := by
  induction txs generalizing p with
  | nil => simp at hp
  | cons t rest ih =>
    intro base
    have hnodup2 : (rest.map Transaction.hash).Nodup := by
      simpa using hnodup.of_cons
    cases p with
    | zero =>
      rw [List.getElem?_cons_zero] at hp
      obtain rfl : t = tx := by simpa using hp
      have hsimp : (∀ x ∈ rest, ¬x.hash = t.hash) ∧
          (List.map Transaction.hash rest).Nodup := by simpa using hnodup
      have hno : ∀ tx2 ∈ rest, tx2.hash ≠ t.hash := fun tx2 h2 => hsimp.1 tx2 h2
      simp [buildOutputIndices, buildOutputIndices_none rest t.hash hno (base + 1)]
    | succ q =>
      rw [List.getElem?_cons_succ] at hp
      have := ih q hnodup2 hp (base + 1)
      simp only [buildOutputIndices, this, Option.some.injEq]
      omega

lemma blockOutputLookup_ne_dead (b : Block) (o : OutPoint) :
    blockOutputLookup b o ≠ CellStatus.Dead := by
  unfold blockOutputLookup
  cases buildOutputIndices b.transactions 0 o.tx_hash with
  | none => simp
  | some i =>
    cases hbind : (b.transactions[i]?).bind (fun tx => tx.outputs[o.index]?) with
    | none => simp [hbind]
    | some x => simp [hbind, CellStatus.live_output]

lemma blockCellProvider_cell_eq_lookup (b : Block) (o : OutPoint)
    (hle : countPt o (blockInputs b) ≤ 1) :
    (blockCellProvider b).cell o = blockOutputLookup b o := by
  show (match blockDupCounter b.transactions o with
        | some c => if 0 < c then CellStatus.Dead else blockOutputLookup b o
        | none => blockOutputLookup b o) = blockOutputLookup b o
  rw [blockDupCounter_char]
  rcases Nat.lt_or_ge (countPt o (blockInputs b)) 1 with h1 | h1
  · have h0 : countPt o (blockInputs b) = 0 := by omega
    simp [h0]
  · have h0 : countPt o (blockInputs b) = 1 := by omega
    simp [h0]

/-- Claim C2: for a non-null out point, the block cell provider answers
dead exactly when the point occurs more than once among the block's
inputs; when it occurs at most once, a hash matching some transaction of
the block yields the live output (cellbase iff position 0, block number
from the header) or unknown when the index is out of range, and a hash
matching no transaction yields unknown. -/
theorem blockCellProvider_cell_spec (b : Block) (o : OutPoint)
    (hnull : o.is_null = false)
    (hnodup : (b.transactions.map Transaction.hash).Nodup) :
    ((blockCellProvider b).cell o = CellStatus.Dead ↔ 2 ≤ countPt o (blockInputs b)) ∧
    (countPt o (blockInputs b) ≤ 1 →
      (∀ p tx, b.transactions[p]? = some tx → tx.hash = o.tx_hash →
        (blockCellProvider b).cell o =
          (match tx.outputs[o.index]? with
           | some out =>
             CellStatus.Live (LiveCell.Output ⟨out, some b.header.number, p == 0⟩)
           | none => CellStatus.Unknown)) ∧
      ((∀ tx ∈ b.transactions, tx.hash ≠ o.tx_hash) →
        (blockCellProvider b).cell o = CellStatus.Unknown)) := by
  constructor
  · show ((match blockDupCounter b.transactions o with
          | some c => if 0 < c then CellStatus.Dead else blockOutputLookup b o
          | none => blockOutputLookup b o) = CellStatus.Dead ↔ _)
    rw [blockDupCounter_char]
    rcases Nat.lt_or_ge (countPt o (blockInputs b)) 2 with h2 | h2
    · constructor
      · intro hdead
        rcases Nat.lt_or_ge (countPt o (blockInputs b)) 1 with h1 | h1
        · have h0 : countPt o (blockInputs b) = 0 := by omega
          rw [h0] at hdead
          simp at hdead
          exact absurd hdead (blockOutputLookup_ne_dead b o)
        · have h0 : countPt o (blockInputs b) = 1 := by omega
          rw [h0] at hdead
          simp at hdead
          exact absurd hdead (blockOutputLookup_ne_dead b o)
      · intro hge
        omega
    · have hne : countPt o (blockInputs b) ≠ 0 := by omega
      have hpos : 0 < countPt o (blockInputs b) - 1 := by omega
      simp [hne, hpos, h2]
  · intro hle
    constructor
    · intro p tx hp hhash
      rw [blockCellProvider_cell_eq_lookup b o hle]
      unfold blockOutputLookup
      have hidx := buildOutputIndices_of_getElem b.transactions p tx hnodup hp 0
      rw [hhash] at hidx
      rw [hidx]
      simp only [Nat.zero_add]
      rw [hp]
      cases hout : tx.outputs[o.index]? with
      | some out => simp [hout, CellStatus.live_output]
      | none => simp [hout]
    · intro hno
      rw [blockCellProvider_cell_eq_lookup b o hle]
      unfold blockOutputLookup
      rw [buildOutputIndices_none b.transactions o.tx_hash hno 0]

/-- The cellbase transaction of the C2 witness block. -/
def wTx0 : Transaction := ⟨10, [], [], [⟨100, 0⟩], 10⟩

/-- The second transaction of the C2 witness block, spending the cellbase
output. -/
def wTx1 : Transaction := ⟨11, [⟨10, 0⟩], [], [⟨90, 0⟩], 11⟩

/-- The C2 witness block. -/
def wBlockC2 : Block := ⟨⟨5, 0⟩, [wTx0, wTx1], [], []⟩

/-- Claim C2 (witness): the spec theorem applied to a concrete block and
the out point of its cellbase output. -/
theorem blockCellProvider_cell_spec_witness :
    (blockCellProvider wBlockC2).cell ⟨10, 0⟩ =
      CellStatus.Live (LiveCell.Output ⟨⟨100, 0⟩, some 5, true⟩) := by
  have h := blockCellProvider_cell_spec wBlockC2 ⟨10, 0⟩ (by decide) (by decide)
  have h2 := (h.2 (by decide)).1 0 wTx0 (by decide) (by decide)
  rw [h2]
  rfl

/-- Modelled from the spec: the opaque error kinds of the external
transaction verifier; only Unknown (missing inputs) and Conflict are
distinguished by the pool. -/
inductive TransactionError where
  | Unknown : TransactionError
  | Conflict : TransactionError
  | Other : Nat → TransactionError
deriving DecidableEq, Repr

/-- PoolError from shared tx_pool (declared by its users in the sources). -/
inductive PoolError where
  | InvalidTx : TransactionError → PoolError
  | Conflict : PoolError
  | Duplicate : PoolError
deriving DecidableEq, Repr

/-- StagingTxResult as used by chain_state.rs. -/
inductive StagingTxResult where
  | Normal : Nat → StagingTxResult
  | Orphan : StagingTxResult
deriving DecidableEq, Repr

/-- Modelled from the spec: a pool entry is a transaction, a count, and
the cycles once verification has succeeded. -/
structure PoolEntry where
  transaction : Transaction
  count : Nat
  cycles : Option Nat
deriving DecidableEq, Repr

/-- Modelled from the spec: an orphan entry records the unknown out points
it waits for. -/
structure OrphanEntry where
  entry : PoolEntry
  unknowns : List OutPoint
deriving DecidableEq, Repr

/-- Modelled from the spec: the cell-set meta of one transaction, with a
dead bit per output index. -/
structure TxMeta where
  block_number : Nat
  cellbase : Bool
  dead : List Bool
deriving DecidableEq, Repr

/-- Modelled from the spec: the dead bit at an index of the bitset. -/
def TxMeta.is_dead (m : TxMeta) (i : Nat) : Bool :=
  m.dead.getD i false

/-- The chain state of shared/src/chain_state.rs.  The cell set and the
backing store are modelled as functions from hashes; the external
transaction verifier is a function field (its contract); the verification
cache is a bounded list ordered most-recent first; `verifier_calls` counts
the invocations of the external verifier. -/
structure ChainStateM where
  cell_set : Nat → Option TxMeta
  store : Nat → Option Transaction
  pending : List PoolEntry
  staging_entries : List PoolEntry
  orphan : List OrphanEntry
  conflict : List (Nat × PoolEntry)
  proposal_ids : List Nat
  txs_verify_cache : List (Nat × Nat)
  cache_capacity : Nat
  verifier : ResolvedTransaction → Except TransactionError Nat
  verifier_calls : Nat

/-- CellProvider for ChainState from chain_state.rs: a live bit indexes
the stored transaction's outputs without a bounds check, so a missing
store entry or an out-of-range index panics (modelled as `none`). -/
def ChainStateM.cell (s : ChainStateM) (o : OutPoint) : Option CellStatus :=
  match s.cell_set o.tx_hash with
  | some tx_meta =>
    if tx_meta.is_dead o.index then some CellStatus.Dead
    else
      match s.store o.tx_hash with
      | some tx =>
        match tx.outputs[o.index]? with
        | some out =>
          some (CellStatus.live_output out (some tx_meta.block_number) tx_meta.cellbase)
        | none => none
      | none => none
  | none => some CellStatus.Unknown

/-- Modelled from the spec: the staging pool as a cell provider; an out
point consumed by a staging transaction is dead, an out point produced by
one is live, anything else is unknown. -/
def ChainStateM.stagingCell (s : ChainStateM) (o : OutPoint) : CellStatus :=
  if s.staging_entries.any (fun e => e.transaction.inputs.any (fun pt => pt = o)) then
    CellStatus.Dead
  else
    match s.staging_entries.findSome?
        (fun e => if e.transaction.hash = o.tx_hash then e.transaction.outputs[o.index]?
                  else none) with
    | some out => CellStatus.live_output out none false
    | none => CellStatus.Unknown

/-- The composed provider of ChainState::resolve_transaction:
TransactionCellProvider over the staging pool over the chain state, each
layer consulted through get_cell_status as in OverlayCellProvider. -/
def composedCell (s : ChainStateM) (tx : Transaction) (o : OutPoint) : Option CellStatus :=
  if o.is_null then some (CellStatus.Live LiveCell.Null)
  else
    match (transactionCellProvider tx).cell o with
    | CellStatus.Live lc => some (CellStatus.Live lc)
    | CellStatus.Dead => some CellStatus.Dead
    | CellStatus.Unknown =>
      match s.stagingCell o with
      | CellStatus.Live lc => some (CellStatus.Live lc)
      | CellStatus.Dead => some CellStatus.Dead
      | CellStatus.Unknown => s.cell o

/-- Status collection over a list of out points. -/
def collectStatuses (s : ChainStateM) (tx : Transaction) :
    List OutPoint → Option (List CellStatus)
  | [] => some []
  | pt :: rest =>
    match composedCell s tx pt with
    | some st =>
      match collectStatuses s tx rest with
      | some l => some (st :: l)
      | none => none
    | none => none

/-- ChainState::resolve_transaction from chain_state.rs.  Modelled from
the spec for the resolver it expects: the per-cell statuses are collected
verbatim into the resolved transaction (chain_state.rs inspects Unknown
and Dead statuses of the result, so the Result-returning resolver of
core/src/cell.rs is not the one it is written against). -/
def ChainStateM.resolveTx (s : ChainStateM) (tx : Transaction) : Option ResolvedTransaction :=
  match collectStatuses s tx tx.inputs with
  | none => none
  | some input_cells =>
    match collectStatuses s tx tx.deps with
    | none => none
    | some dep_cells => some ⟨tx, dep_cells, input_cells⟩

/-- Lookup in the verification cache. -/
def cacheLookup (c : List (Nat × Nat)) (h : Nat) : Option Nat :=
  (c.find? (fun p => p.1 == h)).map (fun p => p.2)

/-- LRU insertion: the new entry goes to the front, an old entry under the
same key is dropped, and the size is bounded by the capacity. -/
def cacheInsert (c : List (Nat × Nat)) (cap h cyc : Nat) : List (Nat × Nat) :=
  ((h, cyc) :: c.filter (fun p => p.1 != h)).take cap

/-- ChainState::verify_rtx from chain_state.rs: consult the cache first;
on a miss run the external verifier and cache a successful result. -/
def ChainStateM.verify_rtx (s : ChainStateM) (rtx : ResolvedTransaction) :
    Except TransactionError Nat × ChainStateM :=
  match cacheLookup s.txs_verify_cache rtx.transaction.hash with
  | some cycles => (Except.ok cycles, s)
  | none =>
    match s.verifier rtx with
    | Except.ok cycles =>
      (Except.ok cycles,
       { s with
         txs_verify_cache :=
           cacheInsert s.txs_verify_cache s.cache_capacity rtx.transaction.hash cycles,
         verifier_calls := s.verifier_calls + 1 })
    | Except.error e => (Except.error e, { s with verifier_calls := s.verifier_calls + 1 })

/-- ChainState::verify_transaction from chain_state.rs. -/
def ChainStateM.verify_transaction (s : ChainStateM) (tx : Transaction) :
    Option (Except TransactionError Nat × ChainStateM) :=
  match s.resolveTx tx with
  | some rtx => some (s.verify_rtx rtx)
  | none => none

/-- Modelled from the spec: TxPool::enqueue_tx appends to the pending
queue and refuses a duplicate proposal short-ID. -/
def ChainStateM.enqueue_tx (s : ChainStateM) (entry : PoolEntry) : Bool × ChainStateM :=
  if s.pending.any (fun e => e.transaction.short_id == entry.transaction.short_id) then
    (false, s)
  else
    (true, { s with pending := s.pending ++ [entry] })

/-- Modelled from the spec: TxPool::add_staging. -/
def addStaging (s : ChainStateM) (entry : PoolEntry) : ChainStateM :=
  { s with staging_entries := s.staging_entries ++ [entry] }

/-- Modelled from the spec: TxPool::add_orphan registers the entry under
its unknown out points. -/
def addOrphan (s : ChainStateM) (entry : PoolEntry) (unknowns : List OutPoint) : ChainStateM :=
  { s with orphan := s.orphan ++ [⟨entry, unknowns⟩] }

/-- Conflict-pool insertion keyed by proposal short-ID (an overwrite, as
with HashMap::insert). -/
def conflictInsert (m : List (Nat × PoolEntry)) (k : Nat) (v : PoolEntry) :
    List (Nat × PoolEntry) :=
  (k, v) :: m.filter (fun p => p.1 != k)

/-- The classification loop of ChainState::staging_tx over parallel
status/out-point pairs: collect unknowns, abort on the first dead cell. -/
def classifyCells : List (CellStatus × OutPoint) → Except Unit (List OutPoint)
  | [] => Except.ok []
  | (st, pt) :: rest =>
    match st with
    | CellStatus.Unknown =>
      match classifyCells rest with
      | Except.ok l => Except.ok (pt :: l)
      | Except.error e => Except.error e
    | CellStatus.Dead => Except.error ()
    | CellStatus.Live _ => classifyCells rest

/-- ChainState::staging_tx from chain_state.rs. -/
def ChainStateM.staging_tx (s : ChainStateM) (entry : PoolEntry) :
    Option (Except PoolError StagingTxResult × ChainStateM) :=
  let tx := entry.transaction
  let short_id := tx.short_id
  match s.resolveTx tx with
  | none => none
  | some rtx =>
    match classifyCells (rtx.input_cells.zip tx.inputs) with
    | Except.error _ =>
      some (Except.error PoolError.Conflict,
            { s with conflict := conflictInsert s.conflict short_id entry })
    | Except.ok unk1 =>
      match classifyCells (rtx.dep_cells.zip tx.deps) with
      | Except.error _ =>
        some (Except.error PoolError.Conflict,
              { s with conflict := conflictInsert s.conflict short_id entry })
      | Except.ok unk2 =>
        let unknowns := unk1 ++ unk2
        if unknowns.isEmpty ∧ entry.cycles = none then
          match s.verify_rtx rtx with
          | (Except.error e, s1) => some (Except.error (PoolError.InvalidTx e), s1)
          | (Except.ok cycles, s1) =>
            some (Except.ok (StagingTxResult.Normal cycles),
                  addStaging s1 { entry with cycles := some cycles })
        else
          if unknowns.isEmpty then
            match entry.cycles with
            | some cycles =>
              some (Except.ok (StagingTxResult.Normal cycles), addStaging s entry)
            | none => none
          else
            some (Except.ok StagingTxResult.Orphan, addOrphan s entry unknowns)

/-- Whether an orphan entry waits on an out point produced by `tx`. -/
def orphanTouches (tx : Transaction) (oe : OrphanEntry) : Bool :=
  oe.unknowns.any (fun pt => pt.tx_hash == tx.hash)

/-- The body of the loop of ChainState::update_orphan_from_tx.  Note the
source verifies `tx` — the ancestor that just resolved — rather than the
orphan entry's own transaction, and records those cycles on the entry. -/
def processOrphanEntry (st : ChainStateM) (tx : Transaction) (oe : OrphanEntry) :
    Option ChainStateM :=
  match oe.entry.cycles with
  | some cycles => some (addStaging st { oe.entry with cycles := some cycles })
  | none =>
    match st.verify_transaction tx with
    | none => none
    | some (Except.ok cycles, st1) =>
      some (addStaging st1 { oe.entry with cycles := some cycles })
    | some (Except.error TransactionError.Conflict, st1) =>
      some { st1 with
             conflict := conflictInsert st1.conflict oe.entry.transaction.short_id oe.entry }
    | some (Except.error _, st1) => some st1

/-- ChainState::update_orphan_from_tx from chain_state.rs:
`orphan.remove_by_ancestor(tx)` is modelled from the spec as taking every
entry one of whose recorded unknown out points refers to `tx`. -/
def ChainStateM.update_orphan_from_tx (s : ChainStateM) (tx : Transaction) :
    Option ChainStateM :=
  let removed := s.orphan.filter (orphanTouches tx)
  let s0 := { s with orphan := s.orphan.filter (fun oe => !(orphanTouches tx oe)) }
  removed.foldlM (fun st oe => processOrphanEntry st tx oe) s0

/-- ChainState::add_tx_to_pool from chain_state.rs. -/
def ChainStateM.add_tx_to_pool (s : ChainStateM) (tx : Transaction) :
    Option (Except PoolError Nat × ChainStateM) :=
  let short_id := tx.short_id
  match s.verify_transaction tx with
  | none => none
  | some (verify_result, s1) =>
    if s1.proposal_ids.contains short_id then
      match s1.staging_tx ⟨tx, 0, verify_result.toOption⟩ with
      | none => none
      | some (Except.error e, s2) => some (Except.error e, s2)
      | some (Except.ok _, s2) =>
        match verify_result with
        | Except.ok cycles => some (Except.ok cycles, s2)
        | Except.error e => some (Except.error (PoolError.InvalidTx e), s2)
    else
      match verify_result with
      | Except.ok cycles =>
        match s1.enqueue_tx ⟨tx, 0, some cycles⟩ with
        | (false, s2) => some (Except.error PoolError.Duplicate, s2)
        | (true, s2) => some (Except.ok cycles, s2)
      | Except.error TransactionError.Unknown =>
        match s1.enqueue_tx ⟨tx, 0, none⟩ with
        | (false, s2) => some (Except.error PoolError.Duplicate, s2)
        | (true, s2) =>
          some (Except.error (PoolError.InvalidTx TransactionError.Unknown), s2)
      | Except.error e => some (Except.error (PoolError.InvalidTx e), s1)

/-- Modelled from the spec: TxPool::remove_expired drops pool entries
whose proposal IDs have expired. -/
def ChainStateM.remove_expired (s : ChainStateM) (ids : List Nat) : ChainStateM :=
  { s with pending := s.pending.filter (fun e => !(ids.contains e.transaction.short_id)) }

/-- Modelled from the spec: StagingPool::readd_tx re-adds a retained
transaction to staging with its cycles. -/
def readdStaging (st : ChainStateM) (tx : Transaction) (cycles : Nat) : ChainStateM :=
  addStaging st ⟨tx, 0, some cycles⟩

/-- Modelled from the spec: TxPool::committed purges the transaction from
staging and pending. -/
def committedTx (st : ChainStateM) (tx : Transaction) : ChainStateM :=
  { st with
    staging_entries := st.staging_entries.filter (fun e => e.transaction.hash != tx.hash),
    pending := st.pending.filter (fun e => e.transaction.short_id != tx.short_id) }

/-- Modelled from the spec: TxPool::remove_pending_from_proposal takes the
pending entry with the given proposal short-ID, if any. -/
def removePendingFromProposal (st : ChainStateM) (id : Nat) :
    Option PoolEntry × ChainStateM :=
  match st.pending.find? (fun e => e.transaction.short_id == id) with
  | some e =>
    (some e, { st with pending := st.pending.filter (fun x => x.transaction.short_id != id) })
  | none => (none, st)

/-- The per-retained-transaction step of update_tx_pool_for_reorg: the
verification error, if any, is discarded (but the verifier ran). -/
def reorgRetainStep (st : ChainStateM) (tx : Transaction) : Option ChainStateM :=
  match st.verify_transaction tx with
  | none => none
  | some (Except.ok cycles, st1) => some (readdStaging st1 tx cycles)
  | some (Except.error _, st1) => some st1

/-- The per-proposal-id step of update_tx_pool_for_reorg: promote the
pending entry into staging; on Normal, run orphan resolution for its
descendants; errors are only logged. -/
def reorgProposalStep (st : ChainStateM) (id : Nat) : Option ChainStateM :=
  match removePendingFromProposal st id with
  | (none, st1) => some st1
  | (some entry, st1) =>
    let tx := entry.transaction
    match st1.staging_tx entry with
    | none => none
    | some (Except.ok (StagingTxResult.Normal _), st2) => st2.update_orphan_from_tx tx
    | some (Except.ok StagingTxResult.Orphan, st2) => some st2
    | some (Except.error _, st2) => some st2

/-- The non-cellbase transactions of a list of blocks, deduplicated (the
source collects them into a hash set; iteration order of that set is not
significant for the verified claims). -/
def nonCellbaseTxs (blocks : List Block) : List Transaction :=
  (blocks.flatMap (fun b => b.transactions.drop 1)).dedup

/-- ChainState::update_tx_pool_for_reorg from chain_state.rs. -/
def ChainStateM.update_tx_pool_for_reorg (s : ChainStateM)
    (detached_blocks attached_blocks : List Block)
    (detached_proposal_id : List Nat) : Option ChainStateM :=
  let s0 := s.remove_expired detached_proposal_id
  let detached := nonCellbaseTxs detached_blocks
  let attached := nonCellbaseTxs attached_blocks
  let retain := detached.filter (fun tx => !(attached.contains tx))
  let s1 := if detached.isEmpty then s0 else { s0 with txs_verify_cache := [] }
  match retain.foldlM reorgRetainStep s1 with
  | none => none
  | some s2 =>
    match attached.foldlM (fun st tx => st.update_orphan_from_tx tx) s2 with
    | none => none
    | some s3 =>
      let s4 := attached.foldl committedTx s3
      s4.proposal_ids.foldlM reorgProposalStep s4

/-- Claim C10: the chain-state provider is total only under the
store-consistency precondition.  For a live (not dead) bit whose index
reaches past the stored transaction's outputs the unchecked indexing
panics (`none`); within bounds it returns the live output with the stored
block number and cellbase flag. -/
theorem chainState_cell_spec (s : ChainStateM) (o : OutPoint) (meta : TxMeta)
    (tx : Transaction)
    (hm : s.cell_set o.tx_hash = some meta)
    (hd : meta.is_dead o.index = false)
    (hs : s.store o.tx_hash = some tx) :
    (tx.outputs.length ≤ o.index → s.cell o = none) ∧
    (o.index < tx.outputs.length →
      ∃ out, tx.outputs[o.index]? = some out ∧
        s.cell o = some (CellStatus.live_output out (some meta.block_number) meta.cellbase)) := by
  unfold ChainStateM.cell
  rw [hm]
  dsimp only
  rw [hd]
  simp only [Bool.false_eq_true, if_false]
  rw [hs]
  dsimp only
  constructor
  · intro hlen
    rw [List.getElem?_eq_none hlen]
  · intro hlt
    refine ⟨tx.outputs[o.index], List.getElem?_eq_getElem hlt, ?_⟩
    rw [List.getElem?_eq_getElem hlt]

/-- The C10 witness transaction stored under hash 1, with one output. -/
def wTxC10 : Transaction := ⟨1, [], [], [⟨100, 0⟩], 1⟩

/-- The C10 witness chain state: the cell set holds hash 1 with a single
live (not dead) bit. -/
def wStateC10 : ChainStateM :=
  ⟨fun h => if h = 1 then some ⟨5, true, [false]⟩ else none,
   fun h => if h = 1 then some wTxC10 else none,
   [], [], [], [], [], [], 10, fun _ => Except.ok 7, 0⟩

/-- Claim C10 (witness): the spec theorem at a concrete state — index 5
panics, index 0 yields the live output. -/
theorem chainState_cell_spec_witness :
    wStateC10.cell ⟨1, 5⟩ = none ∧
    ∃ out, wStateC10.cell ⟨1, 0⟩ =
      some (CellStatus.live_output out (some 5) true) := by
  constructor
  · exact (chainState_cell_spec wStateC10 ⟨1, 5⟩ ⟨5, true, [false]⟩ wTxC10
      rfl rfl rfl).1 (by decide)
  · obtain ⟨out, -, hcell⟩ := (chainState_cell_spec wStateC10 ⟨1, 0⟩ ⟨5, true, [false]⟩
      wTxC10 rfl rfl rfl).2 (by decide)
    exact ⟨out, hcell⟩

lemma composedCell_congr (s1 s : ChainStateM)
    (h1 : s1.staging_entries = s.staging_entries)
    (h2 : s1.cell_set = s.cell_set) (h3 : s1.store = s.store)
    (tx : Transaction) (o : OutPoint) :
    composedCell s1 tx o = composedCell s tx o := by
  unfold composedCell ChainStateM.stagingCell ChainStateM.cell
  rw [h1, h2, h3]

lemma collectStatuses_congr (s1 s : ChainStateM)
    (h1 : s1.staging_entries = s.staging_entries)
    (h2 : s1.cell_set = s.cell_set) (h3 : s1.store = s.store)
    (tx : Transaction) (pts : List OutPoint) :
    collectStatuses s1 tx pts = collectStatuses s tx pts := by
  induction pts with
  | nil => rfl
  | cons pt rest ih =>
    unfold collectStatuses
    rw [composedCell_congr s1 s h1 h2 h3 tx pt, ih]

lemma resolveTx_congr (s1 s : ChainStateM)
    (h1 : s1.staging_entries = s.staging_entries)
    (h2 : s1.cell_set = s.cell_set) (h3 : s1.store = s.store) (tx : Transaction) :
    s1.resolveTx tx = s.resolveTx tx := by
  unfold ChainStateM.resolveTx
  rw [collectStatuses_congr s1 s h1 h2 h3 tx tx.inputs,
    collectStatuses_congr s1 s h1 h2 h3 tx tx.deps]

lemma verify_transaction_eq (s : ChainStateM) (tx : Transaction) (rtx : ResolvedTransaction)
    (h : s.resolveTx tx = some rtx) :
    s.verify_transaction tx = some (s.verify_rtx rtx) := by
  unfold ChainStateM.verify_transaction
  rw [h]

lemma verify_transaction_eq_none (s : ChainStateM) (tx : Transaction)
    (h : s.resolveTx tx = none) :
    s.verify_transaction tx = none := by
  unfold ChainStateM.verify_transaction
  rw [h]

lemma verify_rtx_hit (s : ChainStateM) (rtx : ResolvedTransaction) (c : Nat)
    (h : cacheLookup s.txs_verify_cache rtx.transaction.hash = some c) :
    s.verify_rtx rtx = (Except.ok c, s) := by
  unfold ChainStateM.verify_rtx
  rw [h]

lemma verify_rtx_miss_ok (s : ChainStateM) (rtx : ResolvedTransaction) (c : Nat)
    (h1 : cacheLookup s.txs_verify_cache rtx.transaction.hash = none)
    (h2 : s.verifier rtx = Except.ok c) :
    s.verify_rtx rtx =
      (Except.ok c,
       { s with
         txs_verify_cache :=
           cacheInsert s.txs_verify_cache s.cache_capacity rtx.transaction.hash c,
         verifier_calls := s.verifier_calls + 1 }) := by
  unfold ChainStateM.verify_rtx
  rw [h1, h2]

lemma verify_rtx_miss_err (s : ChainStateM) (rtx : ResolvedTransaction)
    (e : TransactionError)
    (h1 : cacheLookup s.txs_verify_cache rtx.transaction.hash = none)
    (h2 : s.verifier rtx = Except.error e) :
    s.verify_rtx rtx = (Except.error e, { s with verifier_calls := s.verifier_calls + 1 }) := by
  unfold ChainStateM.verify_rtx
  rw [h1, h2]

lemma verify_transaction_state (s : ChainStateM) (tx : Transaction)
    (r : Except TransactionError Nat) (s1 : ChainStateM)
    (h : s.verify_transaction tx = some (r, s1)) :
    ∃ cache calls,
      s1 = { s with txs_verify_cache := cache, verifier_calls := calls } := by
  cases hres : s.resolveTx tx with
  | none =>
    rw [verify_transaction_eq_none s tx hres] at h
    exact absurd h (by simp)
  | some rtx =>
    rw [verify_transaction_eq s tx rtx hres] at h
    have hpair : s.verify_rtx rtx = (r, s1) := Option.some.inj h
    cases hl : cacheLookup s.txs_verify_cache rtx.transaction.hash with
    | some cy =>
      rw [verify_rtx_hit s rtx cy hl] at hpair
      have h2 : s1 = s := (Prod.ext_iff.mp hpair.symm).2
      refine ⟨s.txs_verify_cache, s.verifier_calls, ?_⟩
      rw [h2]
    | none =>
      cases hv : s.verifier rtx with
      | ok cy =>
        rw [verify_rtx_miss_ok s rtx cy hl hv] at hpair
        exact ⟨_, _, (Prod.ext_iff.mp hpair.symm).2⟩
      | error e =>
        rw [verify_rtx_miss_err s rtx e hl hv] at hpair
        refine ⟨s.txs_verify_cache, s.verifier_calls + 1, (Prod.ext_iff.mp hpair.symm).2⟩

lemma cacheLookup_insert_self (c : List (Nat × Nat)) (cap h cy : Nat) (hcap : 1 ≤ cap) :
    cacheLookup (cacheInsert c cap h cy) h = some cy := by
  cases cap with
  | zero => omega
  | succ m =>
    simp [cacheInsert, cacheLookup, List.take_succ_cons, List.find?]

/-- Claim C9: with cache capacity at least one, a successful
verify_transaction followed immediately by another on the same
transaction returns the same cycles from the cache, leaving the state
(including the count of external-verifier invocations) unchanged. -/
theorem verify_transaction_cached (s : ChainStateM) (tx : Transaction) (c : Nat)
    (s1 : ChainStateM) (hcap : 1 ≤ s.cache_capacity)
    (h : s.verify_transaction tx = some (Except.ok c, s1)) :
    s1.verify_transaction tx = some (Except.ok c, s1) := by
  cases hres : s.resolveTx tx with
  | none =>
    rw [verify_transaction_eq_none s tx hres] at h
    exact absurd h (by simp)
  | some rtx =>
    rw [verify_transaction_eq s tx rtx hres] at h
    have hpair : s.verify_rtx rtx = (Except.ok c, s1) := Option.some.inj h
    cases hl : cacheLookup s.txs_verify_cache rtx.transaction.hash with
    | some cy =>
      rw [verify_rtx_hit s rtx cy hl] at hpair
      have hc : cy = c := Except.ok.inj (Prod.ext_iff.mp hpair).1
      have hs1 : s = s1 := (Prod.ext_iff.mp hpair).2
      subst hs1
      rw [verify_transaction_eq s tx rtx hres, verify_rtx_hit s rtx c (hc ▸ hl)]
    | none =>
      cases hv : s.verifier rtx with
      | error e =>
        rw [verify_rtx_miss_err s rtx e hl hv] at hpair
        exact absurd (Prod.ext_iff.mp hpair).1 (by simp)
      | ok cy =>
        rw [verify_rtx_miss_ok s rtx cy hl hv] at hpair
        have hc : cy = c := Except.ok.inj (Prod.ext_iff.mp hpair).1
        have hs1 : s1 = { s with
            txs_verify_cache :=
              cacheInsert s.txs_verify_cache s.cache_capacity rtx.transaction.hash cy,
            verifier_calls := s.verifier_calls + 1 } :=
          (Prod.ext_iff.mp hpair.symm).2
        have hstag : s1.staging_entries = s.staging_entries := by rw [hs1]
        have hcs : s1.cell_set = s.cell_set := by rw [hs1]
        have hst : s1.store = s.store := by rw [hs1]
        have hres1 : s1.resolveTx tx = some rtx := by
          rw [resolveTx_congr s1 s hstag hcs hst tx]
          exact hres
        have hcache : cacheLookup s1.txs_verify_cache rtx.transaction.hash = some c := by
          rw [hs1]
          dsimp only
          rw [cacheLookup_insert_self s.txs_verify_cache s.cache_capacity
            rtx.transaction.hash cy hcap, hc]
        rw [verify_transaction_eq s1 tx rtx hres1, verify_rtx_hit s1 rtx c hcache]

/-- The C9 witness state: empty pools, capacity-one cache, a verifier
that always answers 7 cycles. -/
def wStateC9 : ChainStateM :=
  ⟨fun _ => none, fun _ => none, [], [], [], [], [], [], 1, fun _ => Except.ok 7, 0⟩

/-- The C9 witness transaction. -/
def wTxC9 : Transaction := ⟨1, [], [], [], 1⟩

/-- The C9 witness state after the first verification: the cycles are
cached and the verifier ran once. -/
def wStateC9b : ChainStateM :=
  { wStateC9 with txs_verify_cache := [(1, 7)], verifier_calls := 1 }

/-- Claim C9 (witness): the cached-verification theorem at a concrete
state and transaction. -/
theorem verify_transaction_cached_witness :
    wStateC9.verify_transaction wTxC9 = some (Except.ok 7, wStateC9b) ∧
    wStateC9b.verify_transaction wTxC9 = some (Except.ok 7, wStateC9b) :=
  ⟨rfl, verify_transaction_cached wStateC9 wTxC9 7 wStateC9b (by decide) rfl⟩

/-- Claim C5: for a transaction whose proposal short-ID is outside the
proposal window, add_tx_to_pool enqueues into pending and surfaces the
Unknown error, or enqueues with the cycles on success; a duplicate
short-ID already pending yields Duplicate in either of those two cases;
any other verification error surfaces as InvalidTx without enqueueing. -/
theorem add_tx_to_pool_pending_spec (s : ChainStateM) (tx : Transaction)
    (hprop : s.proposal_ids.contains tx.short_id = false) :
    (∀ c s1, s.verify_transaction tx = some (Except.ok c, s1) →
      s.pending.any (fun e => e.transaction.short_id == tx.short_id) = false →
      s.add_tx_to_pool tx =
        some (Except.ok c, { s1 with pending := s1.pending ++ [⟨tx, 0, some c⟩] })) ∧
    (∀ s1, s.verify_transaction tx = some (Except.error TransactionError.Unknown, s1) →
      s.pending.any (fun e => e.transaction.short_id == tx.short_id) = false →
      s.add_tx_to_pool tx =
        some (Except.error (PoolError.InvalidTx TransactionError.Unknown),
              { s1 with pending := s1.pending ++ [⟨tx, 0, none⟩] })) ∧
    (∀ r s1, s.verify_transaction tx = some (r, s1) →
      ((∃ c, r = Except.ok c) ∨ r = Except.error TransactionError.Unknown) →
      s.pending.any (fun e => e.transaction.short_id == tx.short_id) = true →
      s.add_tx_to_pool tx = some (Except.error PoolError.Duplicate, s1)) ∧
    (∀ e s1, s.verify_transaction tx = some (Except.error e, s1) →
      e ≠ TransactionError.Unknown →
      s.add_tx_to_pool tx = some (Except.error (PoolError.InvalidTx e), s1)) := by
  have hframe : ∀ r s1, s.verify_transaction tx = some (r, s1) →
      s1.proposal_ids.contains tx.short_id = false ∧ s1.pending = s.pending := by
    intro r s1 h
    obtain ⟨cc, vc, hs1⟩ := verify_transaction_state s tx r s1 h
    constructor
    · rw [hs1]
      exact hprop
    · rw [hs1]
  refine ⟨?_, ?_, ?_, ?_⟩
  · intro c s1 h hnodup
    obtain ⟨hprop1, hpend1⟩ := hframe _ _ h
    unfold ChainStateM.add_tx_to_pool
    rw [h]
    dsimp only
    rw [hprop1]
    simp only [Bool.false_eq_true, if_false]
    unfold ChainStateM.enqueue_tx
    dsimp only
    rw [hpend1, hnodup]
    simp only [Bool.false_eq_true, if_false]
  · intro s1 h hnodup
    obtain ⟨hprop1, hpend1⟩ := hframe _ _ h
    unfold ChainStateM.add_tx_to_pool
    rw [h]
    dsimp only
    rw [hprop1]
    simp only [Bool.false_eq_true, if_false]
    unfold ChainStateM.enqueue_tx
    dsimp only
    rw [hpend1, hnodup]
    simp only [Bool.false_eq_true, if_false]
  · intro r s1 h hr hdup
    obtain ⟨hprop1, hpend1⟩ := hframe _ _ h
    unfold ChainStateM.add_tx_to_pool
    rw [h]
    dsimp only
    rw [hprop1]
    simp only [Bool.false_eq_true, if_false]
    rcases hr with ⟨c, rfl⟩ | rfl
    · unfold ChainStateM.enqueue_tx
      dsimp only
      rw [hpend1, hdup]
      simp only [if_true]
    · unfold ChainStateM.enqueue_tx
      dsimp only
      rw [hpend1, hdup]
      simp only [if_true]
  · intro e s1 h hne
    obtain ⟨hprop1, hpend1⟩ := hframe _ _ h
    unfold ChainStateM.add_tx_to_pool
    rw [h]
    dsimp only
    rw [hprop1]
    cases e with
    | Unknown => exact absurd rfl hne
    | Conflict => simp only [Bool.false_eq_true, if_false]
    | Other n => simp only [Bool.false_eq_true, if_false]

/-- The C5 witness verifier: hash 2 is unresolvable (Unknown), hash 3
fails with another error, everything else verifies at 7 cycles. -/
def wVerifierC5 : ResolvedTransaction → Except TransactionError Nat :=
  fun rtx =>
    if rtx.transaction.hash == 2 then Except.error TransactionError.Unknown
    else if rtx.transaction.hash == 3 then Except.error (TransactionError.Other 0)
    else Except.ok 7

/-- The C5 witness state: empty pools and window. -/
def wStateC5 : ChainStateM :=
  ⟨fun _ => none, fun _ => none, [], [], [], [], [], [], 10, wVerifierC5, 0⟩

/-- The C5 witness transaction (verifies at 7 cycles). -/
def wTxC5 : Transaction := ⟨1, [], [], [], 1⟩

/-- The C5 witness state right after verification of the witness
transaction. -/
def wStateC5b : ChainStateM :=
  { wStateC5 with txs_verify_cache := [(1, 7)], verifier_calls := 1 }

/-- Claim C5 (witness): the pending-path theorem applied at a concrete
state and transaction whose verification succeeds. -/
theorem add_tx_to_pool_pending_spec_witness :
    wStateC5.add_tx_to_pool wTxC5 =
      some (Except.ok 7, { wStateC5b with pending := wStateC5b.pending ++ [⟨wTxC5, 0, some 7⟩] }) :=
  (add_tx_to_pool_pending_spec wStateC5 wTxC5 (by decide)).1 7 wStateC5b rfl (by decide)

/-- The parent transaction for the C3 evaluation (verifies at 7 cycles). -/
def parentTxC3 : Transaction := ⟨100, [], [], [⟨50, 0⟩], 100⟩

/-- The orphaned child transaction for the C3 evaluation; its own
verification fails with Conflict. -/
def childTxC3 : Transaction := ⟨200, [⟨100, 0⟩], [], [], 200⟩

/-- The C3 verifier: the child conflicts, everything else verifies. -/
def verifierC3 : ResolvedTransaction → Except TransactionError Nat :=
  fun rtx =>
    if rtx.transaction.hash == 200 then Except.error TransactionError.Conflict
    else Except.ok 7

/-- The C3 state: the orphan pool holds the child, keyed by the parent's
out point, with no cycles recorded. -/
def stateC3 : ChainStateM :=
  ⟨fun _ => none, fun _ => none, [], [], [⟨⟨childTxC3, 0, none⟩, [⟨100, 0⟩]⟩],
   [], [], [], 10, verifierC3, 0⟩

/-- Claim C3 (code bug, evaluated): update_orphan_from_tx verifies the
ancestor `tx` instead of the removed entry's own transaction: the child —
whose own verification fails with Conflict — is added to staging with the
ancestor's 7 cycles recorded on it, and the conflict pool stays empty. -/
theorem update_orphan_from_tx_verifies_ancestor :
    (∃ s1, stateC3.update_orphan_from_tx parentTxC3 = some s1 ∧
      s1.staging_entries = [⟨childTxC3, 0, some 7⟩] ∧
      s1.conflict = [] ∧ s1.orphan = []) ∧
    (∃ s2, stateC3.verify_transaction childTxC3 =
      some (Except.error TransactionError.Conflict, s2)) :=
  ⟨⟨_, rfl, rfl, rfl, rfl⟩, ⟨_, rfl⟩⟩

lemma update_orphan_from_tx_no_orphans (st : ChainStateM) (tx : Transaction)
    (h : st.orphan = []) : st.update_orphan_from_tx tx = some st := by
  unfold ChainStateM.update_orphan_from_tx
  rw [h]
  simp only [List.filter_nil, List.foldlM_nil]
  rw [← h]
  rfl

lemma foldlM_update_orphan_no_orphans (txs : List Transaction) (st : ChainStateM)
    (h : st.orphan = []) :
    txs.foldlM (fun st tx => st.update_orphan_from_tx tx) st = some st := by
  induction txs with
  | nil => rfl
  | cons t rest ih =>
    rw [List.foldlM_cons, update_orphan_from_tx_no_orphans st t h]
    exact ih

lemma reorgProposalStep_no_pending (st : ChainStateM) (id : Nat)
    (h : st.pending = []) : reorgProposalStep st id = some st := by
  unfold reorgProposalStep removePendingFromProposal
  rw [h]
  rfl

lemma foldlM_proposal_no_pending (ids : List Nat) (st : ChainStateM)
    (h : st.pending = []) : ids.foldlM reorgProposalStep st = some st := by
  induction ids with
  | nil => rfl
  | cons i rest ih =>
    rw [List.foldlM_cons, reorgProposalStep_no_pending st i h]
    exact ih

lemma foldl_committed_inv (txs : List Transaction) (st : ChainStateM)
    (h : st.pending = []) :
    (txs.foldl committedTx st).pending = [] ∧
    (txs.foldl committedTx st).txs_verify_cache = st.txs_verify_cache ∧
    (txs.foldl committedTx st).proposal_ids = st.proposal_ids := by
  induction txs generalizing st with
  | nil => exact ⟨h, rfl, rfl⟩
  | cons t rest ih =>
    rw [List.foldl_cons]
    have hstep : (committedTx st t).pending = [] := by
      unfold committedTx
      rw [h]
      rfl
    exact ih (committedTx st t) hstep

/-- Claim C4 (amended): when the detached blocks contain at least one
non-cellbase transaction the verification cache is cleared; if moreover
nothing is re-verified in the rest of the call (every detached
non-cellbase transaction is also attached, and the orphan and pending
pools are empty) the cache is empty after the call. -/
theorem update_tx_pool_for_reorg_cache (s : ChainStateM)
    (dbs abs2 : List Block) (exp : List Nat) (s1 : ChainStateM)
    (hdet : (nonCellbaseTxs dbs).isEmpty = false)
    (hretain : (nonCellbaseTxs dbs).filter
      (fun tx => !((nonCellbaseTxs abs2).contains tx)) = [])
    (horphan : s.orphan = [])
    (hpending : s.pending = [])
    (h : s.update_tx_pool_for_reorg dbs abs2 exp = some s1) :
    s1.txs_verify_cache = [] := by
  unfold ChainStateM.update_tx_pool_for_reorg at h
  dsimp only at h
  rw [hretain, hdet] at h
  simp only [Bool.false_eq_true, if_false, List.foldlM_nil] at h
  set sc : ChainStateM :=
    { s.remove_expired exp with txs_verify_cache := [] } with hsc
  have hcorph : sc.orphan = [] := by
    rw [hsc]
    unfold ChainStateM.remove_expired
    exact horphan
  have hcpend : sc.pending = [] := by
    rw [hsc]
    unfold ChainStateM.remove_expired
    rw [hpending]
    rfl
  rw [foldlM_update_orphan_no_orphans (nonCellbaseTxs abs2) sc hcorph] at h
  simp only [Option.some.injEq] at h
  obtain ⟨hp4, hc4, -⟩ := foldl_committed_inv (nonCellbaseTxs abs2) sc hcpend
  rw [foldlM_proposal_no_pending _ _ hp4] at h
  have hs1 : s1 = (nonCellbaseTxs abs2).foldl committedTx sc := (Option.some.inj h).symm
  rw [hs1, hc4]

/-- The cellbase of the C4 witness block. -/
def cbTxC4 : Transaction := ⟨300, [], [], [⟨1, 0⟩], 300⟩

/-- The non-cellbase transaction of the C4 witness block. -/
def txC4 : Transaction := ⟨301, [⟨9, 9⟩], [], [], 301⟩

/-- The C4 witness block, detached and re-attached in the witness call. -/
def blockC4 : Block := ⟨⟨7, 0⟩, [cbTxC4, txC4], [], []⟩

/-- The C4 witness state, with a non-empty verification cache. -/
def wStateC4 : ChainStateM :=
  ⟨fun _ => none, fun _ => none, [], [], [], [], [], [(1, 7)], 10,
   fun _ => Except.ok 5, 0⟩

/-- Claim C4 (witness): the amended theorem at a concrete state whose
detached block carries one non-cellbase transaction. -/
theorem update_tx_pool_for_reorg_cache_witness :
    ∃ s1, wStateC4.update_tx_pool_for_reorg [blockC4] [blockC4] [] = some s1 ∧
      s1.txs_verify_cache = [] :=
  ⟨_, rfl, update_tx_pool_for_reorg_cache wStateC4 [blockC4] [blockC4] [] _
    (by decide) (by decide) rfl rfl rfl⟩

/-- The C4 counterexample block: it contains only its cellbase. -/
def cbOnlyBlockC4 : Block := ⟨⟨8, 0⟩, [⟨400, [], [], [], 400⟩], [], []⟩

/-- The C4 counterexample state, with a non-empty verification cache. -/
def ceStateC4 : ChainStateM :=
  ⟨fun _ => none, fun _ => none, [], [], [], [], [], [(1, 7)], 10,
   fun _ => Except.ok 5, 0⟩

/-- Claim C4 (counterexample): detaching one block that contains only its
cellbase leaves the verification cache untouched and non-empty, although
the detached-blocks iterator yielded a block. -/
theorem update_tx_pool_for_reorg_cache_counterexample :
    ceStateC4.update_tx_pool_for_reorg [cbOnlyBlockC4] [] [] = some ceStateC4 ∧
    ceStateC4.txs_verify_cache ≠ [] :=
  ⟨rfl, by decide⟩

/-- Modelled from the spec: the short-ID keys are derived
deterministically from the header nonce and the compact-block nonce. -/
def short_transaction_id_keys (header_nonce compact_nonce : Nat) : Nat × Nat :=
  ((header_nonce + 2654435769) % 2 ^ 64, (compact_nonce + 2135587861) % 2 ^ 64)

/-- Modelled from the spec: the short ID is a 6-byte truncation of a
deterministic keyed hash of the transaction hash. -/
def short_transaction_id (k0 k1 h : Nat) : Nat :=
  (k0 + 2 * k1 + 3 * h) % 2 ^ 48

/-- A compact block: header, nonce, short IDs, proposals and uncles. -/
structure CompactBlock where
  header : Header
  nonce : Nat
  short_ids : List Nat
  proposal_transactions : List Nat
  uncles : List Nat
deriving DecidableEq, Repr

/-- HashMap-style insertion for the short-ID-to-transaction map: a later
insert for the same key overwrites. -/
def tmInsert (m : List (Nat × Transaction)) (k : Nat) (v : Transaction) :
    List (Nat × Transaction) :=
  (k, v) :: m.filter (fun p => p.1 != k)

/-- Lookup in the short-ID map. -/
def tmLookup (m : List (Nat × Transaction)) (k : Nat) : Option Transaction :=
  (m.find? (fun p => p.1 == k)).map (fun p => p.2)

/-- Key removal in the short-ID map. -/
def tmErase (m : List (Nat × Transaction)) (k : Nat) : List (Nat × Transaction) :=
  m.filter (fun p => p.1 != k)

/-- Vec::insert: panics (`none`) when the index exceeds the current
length. -/
def vecInsert (l : List Transaction) (i : Nat) (a : Transaction) :
    Option (List Transaction) :=
  if i ≤ l.length then some (l.take i ++ a :: l.drop i) else none

/-- The walk of Relayer::reconstruct_block over the compact block's short
IDs: a hit is removed from the map and inserted into the block
transactions at the original index; a miss is appended to the missing
indexes. -/
def reconstructWalk : List Nat → Nat → List (Nat × Transaction) → List Transaction →
    List Nat → Option (List Transaction × List Nat)
  | [], _, _, bt, mi => some (bt, mi)
  | sid :: rest, idx, m, bt, mi =>
    match tmLookup m sid with
    | some tx =>
      match vecInsert bt idx tx with
      | some bt1 => reconstructWalk rest (idx + 1) (tmErase m sid) bt1 mi
      | none => none
    | none => reconstructWalk rest (idx + 1) m bt (mi ++ [idx])

/-- The short-ID map built from the supplied transactions followed by the
pool snapshot, as in `txs.extend(...)` then keyed insertion. -/
def buildTxsMap (k0 k1 : Nat) (txs : List Transaction) : List (Nat × Transaction) :=
  txs.foldl (fun m tx => tmInsert m (short_transaction_id k0 k1 tx.hash) tx) []

/-- Relayer::reconstruct_block from sync/src/relayer/mod.rs.  The pool
snapshot (`get_potential_transactions`) is passed as `pool`; a `none`
result is the Vec::insert panic. -/
def reconstruct_block (pool : List Transaction) (cb : CompactBlock)
    (transactions : List Transaction) :
    Option (Option Block × Option (List Nat)) :=
  let keys := short_transaction_id_keys cb.header.nonce cb.nonce
  let txs := transactions ++ pool
  let m := buildTxsMap keys.1 keys.2 txs
  match reconstructWalk cb.short_ids 0 m [] [] with
  | none => none
  | some (bt, mi) =>
    if mi.isEmpty then
      some (some ⟨cb.header, bt, cb.proposal_transactions, cb.uncles⟩, none)
    else
      some (none, some mi)

/-- Index ranges start, start+1, ..., start+len-1. -/
def idxRange (start len : Nat) : List Nat :=
  match len with
  | 0 => []
  | n + 1 => start :: idxRange (start + 1) n

lemma tmLookup_insert (m : List (Nat × Transaction)) (k : Nat) (v : Transaction)
    (k2 : Nat) :
    tmLookup (tmInsert m k v) k2 = if k2 = k then some v else tmLookup m k2 := by
  by_cases hk : k2 = k
  · subst hk
    simp [tmInsert, tmLookup, List.find?]
  · have hne : (k == k2) = false := by
      simp [Ne.symm hk]
    simp only [tmInsert, tmLookup, List.find?, hne, if_neg hk]
    induction m with
    | nil => rfl
    | cons p rest ih =>
      by_cases hp : p.1 = k
      · have h1 : (p.1 != k) = false := by simp [hp]
        have h2 : (p.1 == k2) = false := by simp [hp, Ne.symm hk]
        simp only [List.filter_cons, h1, List.find?]
        rw [h2]
        exact ih
      · have h1 : (p.1 != k) = true := by simp [hp]
        simp only [List.filter_cons, h1, List.find?]
        cases hp2 : (p.1 == k2) with
        | true => rfl
        | false => exact ih

lemma tmLookup_erase (m : List (Nat × Transaction)) (k k2 : Nat) :
    tmLookup (tmErase m k) k2 = if k2 = k then none else tmLookup m k2 := by
  by_cases hk : k2 = k
  · subst hk
    simp only [if_pos rfl]
    induction m with
    | nil => rfl
    | cons p rest ih =>
      by_cases hp : p.1 = k2
      · have h1 : (p.1 != k2) = false := by simp [hp]
        simp only [tmErase, List.filter_cons, h1]
        exact ih
      · have h1 : (p.1 != k2) = true := by simp [hp]
        have h2 : (p.1 == k2) = false := by simp [hp]
        simp only [tmErase, List.filter_cons, h1, tmLookup, List.find?, h2]
        exact ih
  · simp only [if_neg hk]
    induction m with
    | nil => rfl
    | cons p rest ih =>
      by_cases hp : p.1 = k
      · have h1 : (p.1 != k) = false := by simp [hp]
        have h2 : (p.1 == k2) = false := by simp [hp, Ne.symm hk]
        simp only [tmErase, List.filter_cons, h1, tmLookup, List.find?, h2]
        exact ih
      · have h1 : (p.1 != k) = true := by simp [hp]
        simp only [tmErase, List.filter_cons, h1, tmLookup, List.find?]
        cases hp2 : (p.1 == k2) with
        | true => rfl
        | false => exact ih

/-- The short-ID map binds every key to a transaction whose derived short
ID is that key. -/
def mapKeyInv (k0 k1 : Nat) (m : List (Nat × Transaction)) : Prop :=
  ∀ k tx, tmLookup m k = some tx → short_transaction_id k0 k1 tx.hash = k

lemma buildTxsMap_inv (k0 k1 : Nat) (txs : List Transaction) :
    mapKeyInv k0 k1 (buildTxsMap k0 k1 txs) := by
  have hgen : ∀ (l : List Transaction) (m : List (Nat × Transaction)),
      mapKeyInv k0 k1 m →
      mapKeyInv k0 k1
        (l.foldl (fun m tx => tmInsert m (short_transaction_id k0 k1 tx.hash) tx) m) := by
    intro l
    induction l with
    | nil => intro m hm; exact hm
    | cons t rest ih =>
      intro m hm
      rw [List.foldl_cons]
      refine ih _ ?_
      intro k tx hl
      rw [tmLookup_insert] at hl
      by_cases hk : k = short_transaction_id k0 k1 t.hash
      · rw [if_pos hk] at hl
        obtain rfl : t = tx := Option.some.inj hl
        exact hk.symm
      · rw [if_neg hk] at hl
        exact hm k tx hl
  refine hgen txs [] ?_
  intro k tx hl
  exact absurd hl (by simp [tmLookup, List.find?])

lemma mapKeyInv_erase (k0 k1 : Nat) (m : List (Nat × Transaction)) (k : Nat)
    (hm : mapKeyInv k0 k1 m) : mapKeyInv k0 k1 (tmErase m k) := by
  intro k2 tx hl
  rw [tmLookup_erase] at hl
  by_cases hk : k2 = k
  · rw [if_pos hk] at hl
    exact absurd hl (by simp)
  · rw [if_neg hk] at hl
    exact hm k2 tx hl

lemma vecInsert_append (l : List Transaction) (a : Transaction) :
    vecInsert l l.length a = some (l ++ [a]) := by
  unfold vecInsert
  rw [if_pos (Nat.le_refl _)]
  rw [List.take_length, List.drop_length]

/-- The all-hit prefix of the walk: distinct resolvable short IDs are
consumed in order, appending their transactions to the block. -/
lemma reconstructWalk_hits (k0 k1 : Nat) :
    ∀ (hs : List Nat) (tail : List Nat) (m : List (Nat × Transaction))
      (bt : List Transaction) (mi : List Nat),
      mapKeyInv k0 k1 m →
      hs.Nodup →
      (∀ sid ∈ hs, ∃ tx, tmLookup m sid = some tx) →
      ∃ ts m1,
        reconstructWalk (hs ++ tail) bt.length m bt mi =
          reconstructWalk tail (bt.length + hs.length) m1 (bt ++ ts) mi ∧
        ts.map (fun tx => short_transaction_id k0 k1 tx.hash) = hs ∧
        mapKeyInv k0 k1 m1 ∧
        (∀ k, tmLookup m k = none → tmLookup m1 k = none) := by
  intro hs
  induction hs with
  | nil =>
    intro tail m bt mi hm hnd hall
    exact ⟨[], m, by simp, rfl, hm, fun k hk => hk⟩
  | cons sid rest ih =>
    intro tail m bt mi hm hnd hall
    obtain ⟨tx, htx⟩ := hall sid (List.mem_cons_self sid rest)
    have hsid : short_transaction_id k0 k1 tx.hash = sid := hm sid tx htx
    have hstep : reconstructWalk ((sid :: rest) ++ tail) bt.length m bt mi =
        reconstructWalk (rest ++ tail) (bt.length + 1) (tmErase m sid) (bt ++ [tx]) mi := by
      show (match tmLookup m sid with
            | some tx =>
              match vecInsert bt bt.length tx with
              | some bt1 => reconstructWalk (rest ++ tail) (bt.length + 1) (tmErase m sid) bt1 mi
              | none => none
            | none => reconstructWalk (rest ++ tail) (bt.length + 1) m bt (mi ++ [bt.length])) = _
      rw [htx]
      dsimp only
      rw [vecInsert_append]
    have hm1 : mapKeyInv k0 k1 (tmErase m sid) := mapKeyInv_erase k0 k1 m sid hm
    have hnd1 : rest.Nodup := hnd.of_cons
    have hall1 : ∀ s2 ∈ rest, ∃ tx2, tmLookup (tmErase m sid) s2 = some tx2 := by
      intro s2 h2
      obtain ⟨tx2, htx2⟩ := hall s2 (List.mem_cons_of_mem sid h2)
      refine ⟨tx2, ?_⟩
      rw [tmLookup_erase]
      have : s2 ≠ sid := by
        intro heq
        subst heq
        exact (List.nodup_cons.mp hnd).1 h2
      rw [if_neg this]
      exact htx2
    obtain ⟨ts, m1, hwalk, hmap, hm2, hnone⟩ :=
      ih tail (tmErase m sid) (bt ++ [tx]) mi hm1 hnd1 hall1
    refine ⟨tx :: ts, m1, ?_, ?_, hm2, ?_⟩
    · rw [hstep]
      rw [show (bt ++ [tx]).length = bt.length + 1 by simp] at hwalk
      rw [hwalk]
      simp only [List.append_assoc, List.singleton_append, List.length_cons]
      have : bt.length + 1 + rest.length = bt.length + (rest.length + 1) := by omega
      rw [this]
    · simp only [List.map_cons, hsid, hmap]
    · intro k hk
      refine hnone k ?_
      rw [tmLookup_erase]
      by_cases hksid : k = sid
      · rw [if_pos hksid]
      · rw [if_neg hksid]
        exact hk

/-- The all-miss suffix of the walk: unresolvable short IDs append their
indexes in increasing order. -/
lemma reconstructWalk_misses :
    ∀ (ms : List Nat) (idx : Nat) (m : List (Nat × Transaction))
      (bt : List Transaction) (mi : List Nat),
      (∀ sid ∈ ms, tmLookup m sid = none) →
      reconstructWalk ms idx m bt mi = some (bt, mi ++ idxRange idx ms.length) := by
  intro ms
  induction ms with
  | nil =>
    intro idx m bt mi hall
    simp [reconstructWalk, idxRange]
  | cons sid rest ih =>
    intro idx m bt mi hall
    have hsid : tmLookup m sid = none := hall sid (List.mem_cons_self sid rest)
    have hstep : reconstructWalk (sid :: rest) idx m bt mi =
        reconstructWalk rest (idx + 1) m bt (mi ++ [idx]) := by
      show (match tmLookup m sid with
            | some tx =>
              match vecInsert bt idx tx with
              | some bt1 => reconstructWalk rest (idx + 1) (tmErase m sid) bt1 mi
              | none => none
            | none => reconstructWalk rest (idx + 1) m bt (mi ++ [idx])) = _
      rw [hsid]
    rw [hstep, ih (idx + 1) m bt (mi ++ [idx])
      (fun s2 h2 => hall s2 (List.mem_cons_of_mem sid h2))]
    rw [List.append_assoc]
    rfl

/-- Claim C6 (amended): when every short ID of the compact block resolves
(and they are distinct), reconstruction yields the block whose re-derived
short IDs equal the compact block's list in order; when the unresolved
short IDs all come after the resolved ones, it reports exactly their
positions in increasing order; (when a resolved short ID follows an
unresolved one the source panics in `Vec::insert` — see the
counterexample). -/
theorem reconstruct_block_spec (pool : List Transaction) (cb : CompactBlock)
    (supplied : List Transaction) :
    (cb.short_ids.Nodup →
      (∀ sid ∈ cb.short_ids, ∃ tx,
        tmLookup (buildTxsMap (short_transaction_id_keys cb.header.nonce cb.nonce).1
          (short_transaction_id_keys cb.header.nonce cb.nonce).2
          (supplied ++ pool)) sid = some tx) →
      ∃ bt, reconstruct_block pool cb supplied =
          some (some ⟨cb.header, bt, cb.proposal_transactions, cb.uncles⟩, none) ∧
        bt.map (fun tx => short_transaction_id
          (short_transaction_id_keys cb.header.nonce cb.nonce).1
          (short_transaction_id_keys cb.header.nonce cb.nonce).2 tx.hash) =
          cb.short_ids) ∧
    (∀ hs ms, cb.short_ids = hs ++ ms → ms ≠ [] → hs.Nodup →
      (∀ sid ∈ hs, ∃ tx,
        tmLookup (buildTxsMap (short_transaction_id_keys cb.header.nonce cb.nonce).1
          (short_transaction_id_keys cb.header.nonce cb.nonce).2
          (supplied ++ pool)) sid = some tx) →
      (∀ sid ∈ ms,
        tmLookup (buildTxsMap (short_transaction_id_keys cb.header.nonce cb.nonce).1
          (short_transaction_id_keys cb.header.nonce cb.nonce).2
          (supplied ++ pool)) sid = none) →
      reconstruct_block pool cb supplied =
        some (none, some (idxRange hs.length ms.length))) := by
  set k0 : Nat := (short_transaction_id_keys cb.header.nonce cb.nonce).1 with hk0
  set k1 : Nat := (short_transaction_id_keys cb.header.nonce cb.nonce).2 with hk1
  set m0 : List (Nat × Transaction) := buildTxsMap k0 k1 (supplied ++ pool) with hm0
  have hinv : mapKeyInv k0 k1 m0 := hm0 ▸ buildTxsMap_inv k0 k1 (supplied ++ pool)
  constructor
  · intro hnd hall
    obtain ⟨ts, m1, hwalk, hmap, -, -⟩ :=
      reconstructWalk_hits k0 k1 cb.short_ids [] m0 [] [] hinv hnd hall
    have hwalk2 : reconstructWalk cb.short_ids 0 m0 [] [] = some (ts, []) := by
      have h1 := hwalk
      rw [List.append_nil] at h1
      rw [show (([] : List Transaction)).length = 0 from rfl] at h1
      rw [h1]
      rfl
    refine ⟨ts, ?_, by simpa using hmap⟩
    unfold reconstruct_block
    dsimp only
    rw [← hk0, ← hk1, ← hm0, hwalk2]
    rfl
  · intro hs ms hsplit hne hnd hallh hallm
    obtain ⟨ts, m1, hwalk, hmap, -, hnone⟩ :=
      reconstructWalk_hits k0 k1 hs ms m0 [] [] hinv hnd hallh
    have hallm1 : ∀ sid ∈ ms, tmLookup m1 sid = none :=
      fun sid h2 => hnone sid (hallm sid h2)
    have hmiss := reconstructWalk_misses ms hs.length m1 ([] ++ ts) []
      hallm1
    have hwalk2 : reconstructWalk cb.short_ids 0 m0 [] [] =
        some ([] ++ ts, [] ++ idxRange hs.length ms.length) := by
      rw [hsplit]
      have h1 := hwalk
      rw [show (([] : List Transaction)).length = 0 from rfl] at h1
      rw [h1, Nat.zero_add]
      exact hmiss
    unfold reconstruct_block
    dsimp only
    rw [← hk0, ← hk1, ← hm0, hwalk2]
    obtain ⟨m2, ms2, rfl⟩ : ∃ m2 ms2, ms = m2 :: ms2 := by
      cases ms with
      | nil => exact absurd rfl hne
      | cons a b => exact ⟨a, b, rfl⟩
    rfl

/-- The C6 witness transaction. -/
def wTxC6 : Transaction := ⟨1, [], [], [], 1⟩

/-- The C6 witness compact block: one short ID, which is the witness
transaction's derived short ID under the nonce-derived keys. -/
def wCbC6 : CompactBlock := ⟨⟨9, 0⟩, 0, [6925611494], [], []⟩

/-- Claim C6 (witness): the reconstruction theorem applied to a concrete
compact block whose only short ID resolves to the supplied transaction. -/
theorem reconstruct_block_spec_witness :
    ∃ bt, reconstruct_block [] wCbC6 [wTxC6] =
        some (some ⟨wCbC6.header, bt, wCbC6.proposal_transactions, wCbC6.uncles⟩, none) ∧
      bt.map (fun tx => short_transaction_id
        (short_transaction_id_keys wCbC6.header.nonce wCbC6.nonce).1
        (short_transaction_id_keys wCbC6.header.nonce wCbC6.nonce).2 tx.hash) =
        wCbC6.short_ids :=
  (reconstruct_block_spec [] wCbC6 [wTxC6]).1 (by decide) (by
    intro sid hsid
    have hsid2 : sid = 6925611494 := by simpa [wCbC6] using hsid
    subst hsid2
    exact ⟨wTxC6, by decide⟩)

/-- The C6 counterexample compact block: an unresolvable short ID before
the resolvable one. -/
def ceCbC6 : CompactBlock := ⟨⟨9, 0⟩, 0, [5, 6925611494], [], []⟩

/-- Claim C6 (counterexample): with the unmatched short ID first,
`Vec::insert` is called at index 1 on an empty vector and panics, so the
claimed `(None, Some [0])` result is never produced. -/
theorem reconstruct_block_panic_counterexample :
    reconstruct_block [] ceCbC6 [wTxC6] = none ∧
    (none : Option (Option Block × Option (List Nat))) ≠ some (none, some [0]) :=
  ⟨by decide, by decide⟩

/-- One `peer_txs.entry(peer).or_insert_with(Vec::new).push(tx)` step of
prune_tx_proposal_request. -/
def peerPush (a : List (Nat × List Transaction)) (p : Nat) (tx : Transaction) :
    List (Nat × List Transaction) :=
  match a with
  | [] => [(p, [tx])]
  | (q, l) :: rest => if q = p then (q, l ++ [tx]) :: rest else (q, l) :: peerPush rest p tx

/-- The loop of Relayer::prune_tx_proposal_request: transactions found in
the pool are batched per requesting peer; every ID is pushed onto
`remove_ids`, found or not. -/
def pruneLoop (pool : Nat → Option Transaction) :
    List (Nat × List Nat) → List (Nat × List Transaction) → List Nat →
    List (Nat × List Transaction) × List Nat
  | [], ptxs, rids => (ptxs, rids)
  | (id, peers) :: rest, ptxs, rids =>
    let ptxs1 :=
      match pool id with
      | some tx => peers.foldl (fun a p => peerPush a p tx) ptxs
      | none => ptxs
    pruneLoop pool rest ptxs1 (rids ++ [id])

/-- Relayer::prune_tx_proposal_request from sync/src/relayer/mod.rs: the
local tx pool is `pool` (proposal short-ID lookup); the result is the new
`pending_proposals_request` map and the per-peer `BlockProposal`
batches. -/
def prune_tx_proposal_request (pool : Nat → Option Transaction)
    (pending_proposals_request : List (Nat × List Nat)) :
    List (Nat × List Nat) × List (Nat × List Transaction) :=
  let r := pruneLoop pool pending_proposals_request [] []
  (r.2.foldl (fun m id => m.filter (fun e => e.1 != id)) pending_proposals_request,
   r.1)

lemma pruneLoop_rids (pool : Nat → Option Transaction) :
    ∀ (pending : List (Nat × List Nat)) (ptxs : List (Nat × List Transaction))
      (rids : List Nat),
      (pruneLoop pool pending ptxs rids).2 = rids ++ pending.map (fun e => e.1) := by
  intro pending
  induction pending with
  | nil => intro ptxs rids; simp [pruneLoop]
  | cons e rest ih =>
    intro ptxs rids
    obtain ⟨id, peers⟩ := e
    show (pruneLoop pool rest _ (rids ++ [id])).2 = _
    rw [ih _ (rids ++ [id])]
    simp

lemma filter_all_keys (ids : List Nat) (l : List (Nat × List Nat))
    (h : ∀ e ∈ l, e.1 ∈ ids) :
    ids.foldl (fun m id => m.filter (fun e => e.1 != id)) l = [] := by
  induction ids generalizing l with
  | nil =>
    cases l with
    | nil => rfl
    | cons a b => exact absurd (h a (List.mem_cons_self a b)) (by simp)
  | cons i rest ih =>
    rw [List.foldl_cons]
    refine ih _ ?_
    intro e he
    obtain ⟨he2, hne⟩ := List.mem_filter.mp he
    have hne2 : e.1 ≠ i := by simpa using hne
    rcases List.mem_cons.mp (h e he2) with h1 | h1
    · exact absurd h1 hne2
    · exact h1

lemma peerPush_preserves (p : Nat) (tx : Transaction) (p0 : Nat) (tx0 : Transaction) :
    ∀ (a : List (Nat × List Transaction)),
      (∃ txs0, (p0, txs0) ∈ a ∧ tx0 ∈ txs0) →
      ∃ txs1, (p0, txs1) ∈ peerPush a p tx ∧ tx0 ∈ txs1 := by
  intro a
  induction a with
  | nil =>
    intro h
    obtain ⟨txs0, hmem, -⟩ := h
    exact absurd hmem (by simp)
  | cons e rest ih =>
    intro h
    obtain ⟨txs0, hmem, htx⟩ := h
    obtain ⟨q, l⟩ := e
    by_cases hq : q = p
    · rw [show peerPush ((q, l) :: rest) p tx = (q, l ++ [tx]) :: rest from by
        simp [peerPush, hq]]
      rcases List.mem_cons.mp hmem with h1 | h1
      · injection h1 with h2 h3
        subst h2
        subst h3
        exact ⟨txs0 ++ [tx], List.mem_cons_self _ _, List.mem_append_left _ htx⟩
      · exact ⟨txs0, List.mem_cons_of_mem _ h1, htx⟩
    · rw [show peerPush ((q, l) :: rest) p tx = (q, l) :: peerPush rest p tx from by
        simp [peerPush, hq]]
      rcases List.mem_cons.mp hmem with h1 | h1
      · injection h1 with h2 h3
        subst h2
        subst h3
        exact ⟨txs0, List.mem_cons_self _ _, htx⟩
      · obtain ⟨txs1, hh1, hh2⟩ := ih ⟨txs0, h1, htx⟩
        exact ⟨txs1, List.mem_cons_of_mem _ hh1, hh2⟩

lemma peerPush_adds (p : Nat) (tx : Transaction) :
    ∀ (a : List (Nat × List Transaction)),
      ∃ txs1, (p, txs1) ∈ peerPush a p tx ∧ tx ∈ txs1 := by
  intro a
  induction a with
  | nil => exact ⟨[tx], by simp [peerPush], by simp⟩
  | cons e rest ih =>
    obtain ⟨q, l⟩ := e
    by_cases hq : q = p
    · subst hq
      rw [show peerPush ((q, l) :: rest) q tx = (q, l ++ [tx]) :: rest from by
        simp [peerPush]]
      exact ⟨l ++ [tx], List.mem_cons_self _ _, by simp⟩
    · rw [show peerPush ((q, l) :: rest) p tx = (q, l) :: peerPush rest p tx from by
        simp [peerPush, hq]]
      obtain ⟨txs1, h2, h3⟩ := ih
      exact ⟨txs1, List.mem_cons_of_mem _ h2, h3⟩

lemma foldl_peerPush_preserves (peers : List Nat) (tx : Transaction)
    (p0 : Nat) (tx0 : Transaction) :
    ∀ (a : List (Nat × List Transaction)),
      (∃ txs0, (p0, txs0) ∈ a ∧ tx0 ∈ txs0) →
      ∃ txs1, (p0, txs1) ∈ peers.foldl (fun a p => peerPush a p tx) a ∧ tx0 ∈ txs1 := by
  induction peers with
  | nil => intro a h; exact h
  | cons q rest ih =>
    intro a h
    rw [List.foldl_cons]
    exact ih _ (peerPush_preserves q tx p0 tx0 a h)

lemma foldl_peerPush_adds (peers : List Nat) (tx : Transaction) :
    ∀ (a : List (Nat × List Transaction)) (p : Nat), p ∈ peers →
      ∃ txs1, (p, txs1) ∈ peers.foldl (fun a p => peerPush a p tx) a ∧ tx ∈ txs1 := by
  induction peers with
  | nil => intro a p hp; exact absurd hp (by simp)
  | cons q rest ih =>
    intro a p hp
    rw [List.foldl_cons]
    rcases List.mem_cons.mp hp with h1 | h1
    · subst h1
      exact foldl_peerPush_preserves rest tx p tx _ (peerPush_adds p tx a)
    · exact ih _ p h1

lemma pruneLoop_preserves (pool : Nat → Option Transaction) :
    ∀ (pending : List (Nat × List Nat)) (ptxs : List (Nat × List Transaction))
      (rids : List Nat) (p0 : Nat) (tx0 : Transaction),
      (∃ txs0, (p0, txs0) ∈ ptxs ∧ tx0 ∈ txs0) →
      ∃ txs1, (p0, txs1) ∈ (pruneLoop pool pending ptxs rids).1 ∧ tx0 ∈ txs1 := by
  intro pending
  induction pending with
  | nil => intro ptxs rids p0 tx0 h; exact h
  | cons e rest ih =>
    intro ptxs rids p0 tx0 h
    obtain ⟨id, peers⟩ := e
    show ∃ txs1, (p0, txs1) ∈ (pruneLoop pool rest _ (rids ++ [id])).1 ∧ tx0 ∈ txs1
    refine ih _ _ p0 tx0 ?_
    cases hpool : pool id with
    | some tx => exact foldl_peerPush_preserves peers tx p0 tx0 ptxs h
    | none => exact h

lemma pruneLoop_sends (pool : Nat → Option Transaction) :
    ∀ (pending : List (Nat × List Nat)) (ptxs : List (Nat × List Transaction))
      (rids : List Nat) (id : Nat) (peers : List Nat) (tx : Transaction) (p : Nat),
      (id, peers) ∈ pending → pool id = some tx → p ∈ peers →
      ∃ txs, (p, txs) ∈ (pruneLoop pool pending ptxs rids).1 ∧ tx ∈ txs := by
  intro pending
  induction pending with
  | nil => intro ptxs rids id peers tx p hmem; exact absurd hmem (by simp)
  | cons e rest ih =>
    intro ptxs rids id peers tx p hmem hpool hp
    obtain ⟨id2, peers2⟩ := e
    rcases List.mem_cons.mp hmem with h1 | h1
    · injection h1 with h2 h3
      subst h2
      subst h3
      show ∃ txs, (p, txs) ∈
        (pruneLoop pool rest
          (match pool id with
           | some tx => peers.foldl (fun a p => peerPush a p tx) ptxs
           | none => ptxs) (rids ++ [id])).1 ∧ tx ∈ txs
      rw [hpool]
      refine pruneLoop_preserves pool rest _ _ p tx ?_
      exact foldl_peerPush_adds peers tx ptxs p hp
    · show ∃ txs, (p, txs) ∈ (pruneLoop pool rest _ (rids ++ [id2])).1 ∧ tx ∈ txs
      exact ih _ _ id peers tx p h1 hpool hp

/-- Claim C7 (amended): each run batches, per requesting peer, the
transactions found in the local pool for its outstanding proposal IDs,
but removes every outstanding ID from `pending_proposals_request`,
satisfied or not: the map is empty after the run, and unsatisfied IDs are
dropped without a reply. -/
theorem prune_tx_proposal_request_spec (pool : Nat → Option Transaction)
    (pending : List (Nat × List Nat)) :
    (prune_tx_proposal_request pool pending).1 = [] ∧
    (∀ id peers tx p, (id, peers) ∈ pending → pool id = some tx → p ∈ peers →
      ∃ txs, (p, txs) ∈ (prune_tx_proposal_request pool pending).2 ∧ tx ∈ txs) := by
  constructor
  · show (pruneLoop pool pending [] []).2.foldl
        (fun m id => m.filter (fun e => e.1 != id)) pending = []
    rw [pruneLoop_rids pool pending [] []]
    refine filter_all_keys _ pending ?_
    intro e he
    simp only [List.nil_append]
    exact List.mem_map_of_mem (fun e => e.1) he
  · intro id peers tx p hmem hpool hp
    exact pruneLoop_sends pool pending [] [] id peers tx p hmem hpool hp

/-- The C7 witness transaction, stored in the pool under proposal ID 5. -/
def wTxC7 : Transaction := ⟨77, [], [], [], 5⟩

/-- The C7 witness pool: only proposal ID 5 is found. -/
def wPoolC7 : Nat → Option Transaction :=
  fun id => if id = 5 then some wTxC7 else none

/-- Claim C7 (witness): the pruning theorem applied to one outstanding
request, for ID 5 from peer 1, which the pool satisfies. -/
theorem prune_tx_proposal_request_spec_witness :
    (prune_tx_proposal_request wPoolC7 [(5, [1])]).1 = [] ∧
    ∃ txs, (1, txs) ∈ (prune_tx_proposal_request wPoolC7 [(5, [1])]).2 ∧ wTxC7 ∈ txs := by
  have h := prune_tx_proposal_request_spec wPoolC7 [(5, [1])]
  exact ⟨h.1, h.2 5 [1] wTxC7 1 (by simp) (by decide) (by simp)⟩

/-- Claim C7 (counterexample): an outstanding ID whose transaction is not
in the pool does not remain in `pending_proposals_request`: the run
removes it although it was not satisfied. -/
theorem prune_tx_proposal_request_counterexample :
    (prune_tx_proposal_request (fun _ => none) [(5, [1])]).1 = [] ∧
    ¬((5, [1]) ∈ (prune_tx_proposal_request (fun _ => none) [(5, [1])]).1) :=
  ⟨by decide, by decide⟩

end Ckb
